import Mathlib

/-!
Verification of the worker-pool and circuit-breaker fragment of the
golang_repo curriculum (src/golang-mastery/06_concurrency/main.go and
src/golang-mastery/10_advanced_patterns/main.go).

The Go code is shallowly embedded:

* The circuit breaker (CircuitState, CircuitBreaker, NewCircuitBreaker,
  CircuitBreaker.Call) is translated field by field.  Go time.Time /
  time.Duration values are modelled as mathematical integers: a call
  receives the current clock value as a parameter, time.Since t is now - t,
  and time.Now() inside the call stores that same clock value.  Go errors
  are modelled by their message string (the code builds its errors with
  fmt.Errorf on a literal format); nil error is Option.none.  The guarded
  function fn is opaque to the breaker, so a call receives the outcome fn
  would produce (some message, or none for success) instead of fn itself.
  Go int arithmetic is modelled on Int: the only arithmetic is a
  single increment of the failures counter per call, so 64-bit overflow is
  unreachable in every scenario considered here.

* The worker pool (workerPool plus the wiring in main, section 10) is
  modelled as a small-step transition system over the jobs channel, the
  workers and the results channel, with a nondeterministic scheduler; the
  WaitGroup/close(results) coordinator is a dedicated transition.

* The mutex in CircuitBreaker is modelled by a lock token in a second
  transition system in which each concurrent caller of Call runs the
  body in separate atomic sections, so that mutual exclusion is proved
  from the lock discipline rather than assumed.
-/

namespace GolangRepo

/-! ### Circuit breaker: data model (10_advanced_patterns/main.go, lines 217-240) -/

/-- Go: type CircuitState int, with constants Closed, Open, HalfOpen.
The spec calls these states Allowing, Blocking and Probing. -/
inductive CircuitState where
  | Closed
  | Open
  | HalfOpen
deriving DecidableEq, Repr

/-- Go: struct CircuitBreaker (the sync.Mutex field is modelled separately,
in the concurrent system CBSys below; the sequential function Call acts on
the plain data). -/
structure CircuitBreaker where
  state : CircuitState
  failures : Int
  threshold : Int
  lastFailTime : Int
  timeout : Int
deriving DecidableEq, Repr

/-- The message of the error built by fmt.Errorf at line 252. -/
def circuitOpenError : String := "circuit breaker open"

/-- Go: NewCircuitBreaker(threshold, timeout).  The omitted fields get Go
zero values: failures = 0 and the zero time.Time, modelled as clock 0. -/
def NewCircuitBreaker (threshold timeout : Int) : CircuitBreaker :=
  { state := .Closed
    failures := 0
    threshold := threshold
    lastFailTime := 0
    timeout := timeout }

/-- Outcome of one invocation of Call: the breaker after the call, the
returned error, and whether the guarded operation fn was invoked. -/
structure CallResult where
  cb : CircuitBreaker
  err : Option String
  invoked : Bool
deriving DecidableEq, Repr

/-- The switch statement at the top of Call (lines 246-256): in state Open,
either reject (none) or move to HalfOpen when the timeout has elapsed
strictly; otherwise fall through unchanged. -/
def checkPhase (cb : CircuitBreaker) (now : Int) : Option CircuitBreaker :=
  match cb.state with
  | .Open =>
      if now - cb.lastFailTime > cb.timeout then
        some { cb with state := .HalfOpen }
      else
        none
  | _ => some cb

/-- The part of Call after err := fn() (lines 258-272): on failure increment
failures, record the failure time, and open the breaker when the new count
reaches the threshold or the state is HalfOpen; on success reset. -/
def settle (cb : CircuitBreaker) (now : Int) (fnErr : Option String) : CircuitBreaker :=
  match fnErr with
  | some _ =>
      let f := cb.failures + 1
      { cb with
          failures := f
          lastFailTime := now
          state := if f ≥ cb.threshold ∨ cb.state = .HalfOpen then .Open else cb.state }
  | none => { cb with failures := 0, state := .Closed }

/-- Go: func (cb *CircuitBreaker) Call(fn func() error) error.  now is the
clock value during the call and fnErr the outcome fn would produce. -/
def CircuitBreaker.Call (cb : CircuitBreaker) (now : Int) (fnErr : Option String) :
    CallResult :=
  match checkPhase cb now with
  | none => ⟨cb, some circuitOpenError, false⟩
  | some cb1 => ⟨settle cb1 now fnErr, fnErr, true⟩

/-- A sequence of calls, folding Call over a list of (clock, outcome) pairs. -/
def runCalls (cb : CircuitBreaker) : List (Int × Option String) → CircuitBreaker
  | [] => cb
  | (now, e) :: rest => runCalls (cb.Call now e).cb rest

/-- A breaker state is reachable when some sequence of calls starting from
some NewCircuitBreaker produces it. -/
def ReachableCB (cb : CircuitBreaker) : Prop :=
  ∃ threshold timeout calls, cb = runCalls (NewCircuitBreaker threshold timeout) calls

/-! ### Circuit breaker: basic lemmas -/

/-- checkPhase never hands the body a breaker in state Open. -/
lemma checkPhase_state_ne_open {cb cb1 : CircuitBreaker} {now : Int}
    (h : checkPhase cb now = some cb1) : cb1.state ≠ .Open := by
  unfold checkPhase at h
  cases hs : cb.state with
  | Open =>
      rw [hs] at h
      by_cases ht : now - cb.lastFailTime > cb.timeout
      · simp [ht] at h
        simp [← h]
      · simp [ht] at h
  | Closed =>
      rw [hs] at h
      simp at h
      simp [← h, hs]
  | HalfOpen =>
      rw [hs] at h
      simp at h
      simp [← h, hs]

/-- checkPhase leaves every field but the state untouched and only ever
rewrites the state Open to HalfOpen. -/
lemma checkPhase_some {cb cb1 : CircuitBreaker} {now : Int}
    (h : checkPhase cb now = some cb1) :
    (cb1 = cb ∨ (cb.state = .Open ∧ cb1 = { cb with state := .HalfOpen })) := by
  unfold checkPhase at h
  cases hs : cb.state with
  | Open =>
      rw [hs] at h
      by_cases ht : now - cb.lastFailTime > cb.timeout
      · simp [ht] at h
        exact Or.inr ⟨rfl, h.symm⟩
      · simp [ht] at h
  | Closed =>
      rw [hs] at h
      simp at h
      exact Or.inl h.symm
  | HalfOpen =>
      rw [hs] at h
      simp at h
      exact Or.inl h.symm

/-- The breaker invariant: whenever the breaker is Open the failure counter
has reached the threshold, and at rest the breaker is never HalfOpen. -/
def CBInv (cb : CircuitBreaker) : Prop :=
  (cb.state = .Open → cb.threshold ≤ cb.failures) ∧ cb.state ≠ .HalfOpen

lemma cbInv_new (threshold timeout : Int) : CBInv (NewCircuitBreaker threshold timeout) := by
  constructor
  · intro h
    simp [NewCircuitBreaker] at h
  · simp [NewCircuitBreaker]

lemma cbInv_call {cb : CircuitBreaker} (hinv : CBInv cb) (now : Int)
    (fnErr : Option String) : CBInv (cb.Call now fnErr).cb := by
  unfold CircuitBreaker.Call
  cases hchk : checkPhase cb now with
  | none => exact hinv
  | some cb1 =>
      have hfail : cb1.failures = cb.failures := by
        rcases checkPhase_some hchk with h | ⟨_, h⟩ <;> simp [h]
      have hthr : cb1.threshold = cb.threshold := by
        rcases checkPhase_some hchk with h | ⟨_, h⟩ <;> simp [h]
      have hopen : cb1.state = .HalfOpen → cb.threshold ≤ cb.failures := by
        intro hho
        rcases checkPhase_some hchk with h | ⟨hs, _⟩
        · exact absurd (h ▸ hho) hinv.2
        · exact hinv.1 hs
      cases fnErr with
      | none =>
          refine ⟨fun h => ?_, ?_⟩
          · simp [settle] at h
          · simp [settle]
      | some e =>
          by_cases hc : cb1.failures + 1 ≥ cb1.threshold ∨ cb1.state = .HalfOpen
          · refine ⟨fun _ => ?_, ?_⟩
            · show cb1.threshold ≤ cb1.failures + 1
              rcases hc with hge | hho
              · exact hge
              · have := hopen hho
                rw [hfail, hthr]
                omega
            · show (settle cb1 now (some e)).state ≠ .HalfOpen
              simp [settle, hc]
          · refine ⟨fun h => ?_, ?_⟩
            · exact absurd (by simpa [settle, hc] using h) (checkPhase_state_ne_open hchk)
            · show (settle cb1 now (some e)).state ≠ .HalfOpen
              simp only [settle, if_neg hc]
              intro hho
              exact hc (Or.inr hho)

lemma cbInv_runCalls {cb : CircuitBreaker} (hinv : CBInv cb)
    (calls : List (Int × Option String)) : CBInv (runCalls cb calls) := by
  induction calls generalizing cb with
  | nil => exact hinv
  | cons p rest ih => exact ih (cbInv_call hinv p.1 p.2)

lemma reachable_cbInv {cb : CircuitBreaker} (h : ReachableCB cb) : CBInv cb := by
  obtain ⟨threshold, timeout, calls, rfl⟩ := h
  exact cbInv_runCalls (cbInv_new threshold timeout) calls

lemma call_invoked_iff {cb : CircuitBreaker} {now : Int} {fnErr : Option String} :
    (cb.Call now fnErr).invoked = true ↔ ∃ cb1, checkPhase cb now = some cb1 := by
  unfold CircuitBreaker.Call
  cases h : checkPhase cb now <;> simp

/-- An Open breaker still inside its timeout window rejects the call. -/
lemma call_reject {cb : CircuitBreaker} {now : Int} (fnErr : Option String)
    (hopen : cb.state = .Open) (ht : ¬ now - cb.lastFailTime > cb.timeout) :
    cb.Call now fnErr = ⟨cb, some circuitOpenError, false⟩ := by
  unfold CircuitBreaker.Call checkPhase
  rw [hopen]
  simp [ht]

/-- An Open breaker past its timeout lets the probe call through, running
the body on the HalfOpen copy of the breaker. -/
lemma call_probe {cb : CircuitBreaker} {now : Int} (fnErr : Option String)
    (hopen : cb.state = .Open) (ht : now - cb.lastFailTime > cb.timeout) :
    cb.Call now fnErr =
      ⟨settle { cb with state := .HalfOpen } now fnErr, fnErr, true⟩ := by
  unfold CircuitBreaker.Call checkPhase
  rw [hopen]
  simp [ht]

/-- A Closed breaker always lets the call through. -/
lemma call_closed {cb : CircuitBreaker} {now : Int} (fnErr : Option String)
    (hst : cb.state = .Closed) :
    cb.Call now fnErr = ⟨settle cb now fnErr, fnErr, true⟩ := by
  unfold CircuitBreaker.Call checkPhase
  rw [hst]

/-! ### Sequential circuit-breaker claims -/

/-- C8: when Call rejects because the breaker is Open (Blocking) and the
timeout has not elapsed, the whole breaker state is returned unchanged and
the guarded operation is not invoked. -/
theorem c8_reject_preserves_state (cb : CircuitBreaker) (now : Int) (fnErr : Option String)
    (hopen : cb.state = .Open)
    (ht : ¬ now - cb.lastFailTime > cb.timeout) :
    (cb.Call now fnErr).cb = cb ∧ (cb.Call now fnErr).invoked = false ∧
      (cb.Call now fnErr).err = some circuitOpenError := by
  rw [call_reject fnErr hopen ht]
  exact ⟨rfl, rfl, rfl⟩

/-- Witness for C8 at a concrete Open breaker within its timeout window. -/
theorem c8_reject_preserves_state_witness :
    ((⟨.Open, 3, 3, 0, 5⟩ : CircuitBreaker).Call 3 (some "service unavailable")).cb =
      (⟨.Open, 3, 3, 0, 5⟩ : CircuitBreaker) :=
  (c8_reject_preserves_state ⟨.Open, 3, 3, 0, 5⟩ 3 (some "service unavailable")
    rfl (by decide)).1

/-- C10: NewCircuitBreaker performs no validation on any threshold or
timeout and always yields the Closed (Allowing) state with failure counter
0; whenever the threshold is at most 1 (including 0 and negative values)
the very first operation failure moves the breaker to Open (Blocking). -/
theorem c10_new_breaker_initial_state (threshold timeout now : Int) (e : String) :
    NewCircuitBreaker threshold timeout =
      ⟨.Closed, 0, threshold, 0, timeout⟩ ∧
    (threshold ≤ 1 →
      ((NewCircuitBreaker threshold timeout).Call now (some e)).cb.state = .Open) := by
  refine ⟨rfl, fun hth => ?_⟩
  simp [NewCircuitBreaker, CircuitBreaker.Call, checkPhase, settle]
  omega

/-- Witness for C10: the unvalidated construction at threshold 3 (the demo
value) and the first-failure transition at threshold 0. -/
theorem c10_new_breaker_initial_state_witness :
    NewCircuitBreaker 3 5 = ⟨.Closed, 0, 3, 0, 5⟩ ∧
    ((NewCircuitBreaker 0 5).Call 7 (some "boom")).cb.state = .Open :=
  ⟨(c10_new_breaker_initial_state 3 5 7 "boom").1,
   (c10_new_breaker_initial_state 0 5 7 "boom").2 (by decide)⟩

/-- C4: in the Closed (Allowing) state a failure increments the counter and
moves to Open (Blocking) exactly when the incremented counter reaches the
threshold, the state staying Closed otherwise; a success resets the counter
to 0. -/
theorem c4_allowing_state_counter (cb : CircuitBreaker) (now : Int) (e : String)
    (hst : cb.state = .Closed) :
    (cb.Call now (some e)).invoked = true ∧
    (cb.Call now (some e)).cb.failures = cb.failures + 1 ∧
    (cb.Call now (some e)).cb.lastFailTime = now ∧
    ((cb.Call now (some e)).cb.state = .Open ↔ cb.threshold ≤ cb.failures + 1) ∧
    (¬ cb.threshold ≤ cb.failures + 1 → (cb.Call now (some e)).cb.state = .Closed) ∧
    (cb.Call now none).invoked = true ∧
    (cb.Call now none).cb.failures = 0 ∧
    (cb.Call now none).cb.state = .Closed := by
  have hchk : checkPhase cb now = some cb := by
    unfold checkPhase
    rw [hst]
  have hcall : ∀ fnErr, cb.Call now fnErr = ⟨settle cb now fnErr, fnErr, true⟩ := by
    intro fnErr
    unfold CircuitBreaker.Call
    rw [hchk]
  have hcond : ((cb.failures + 1 ≥ cb.threshold) ∨ cb.state = .HalfOpen) ↔
      cb.threshold ≤ cb.failures + 1 := by
    rw [hst]
    simp [ge_iff_le]
  refine ⟨by rw [hcall], by rw [hcall]; simp [settle], by rw [hcall]; simp [settle],
    ?_, ?_, by rw [hcall], by rw [hcall]; simp [settle], by rw [hcall]; simp [settle]⟩
  · rw [hcall]
    show (settle cb now (some e)).state = .Open ↔ _
    by_cases hc : cb.threshold ≤ cb.failures + 1
    · rw [settle]
      simp only [if_pos (hcond.mpr hc)]
      exact iff_of_true (by trivial) hc
    · rw [settle]
      simp only [if_neg (fun h => hc (hcond.mp h))]
      rw [hst]
      exact iff_of_false (by simp) hc
  · intro hc
    rw [hcall]
    show (settle cb now (some e)).state = .Closed
    rw [settle]
    simp only [if_neg (fun h => hc (hcond.mp h))]
    exact hst

/-- Witness for C4: a Closed breaker with threshold 3 and one prior failure. -/
theorem c4_allowing_state_counter_witness :
    ((⟨.Closed, 1, 3, 0, 5⟩ : CircuitBreaker).Call 2 (some "boom")).cb.failures = 2 ∧
    ((⟨.Closed, 1, 3, 0, 5⟩ : CircuitBreaker).Call 2 (some "boom")).cb.state = .Closed :=
  ⟨(c4_allowing_state_counter ⟨.Closed, 1, 3, 0, 5⟩ 2 "boom" rfl).2.1,
   (c4_allowing_state_counter ⟨.Closed, 1, 3, 0, 5⟩ 2 "boom" rfl).2.2.2.2.1 (by decide)⟩

/-- C2: an executed call returns the operation's own error (or nil),
a rejected call returns the distinct circuit-open error without executing
the operation, and with threshold 3 the 4th call after 3 consecutive
failures is rejected without invoking the operation, with an error
distinguishable from the operation's own failure. -/
theorem c2_call_error_discipline (cb : CircuitBreaker) (now : Int) (fnErr : Option String)
    (tm t1 t2 t3 t4 : Int) (e : String)
    (ht4 : t4 - t3 ≤ tm) (he : e ≠ circuitOpenError) :
    ((cb.Call now fnErr).invoked = true → (cb.Call now fnErr).err = fnErr) ∧
    ((cb.Call now fnErr).invoked = false →
      (cb.Call now fnErr).err = some circuitOpenError) ∧
    ((runCalls (NewCircuitBreaker 3 tm)
        [(t1, some e), (t2, some e), (t3, some e)]).Call t4 (some e)).invoked = false ∧
    ((runCalls (NewCircuitBreaker 3 tm)
        [(t1, some e), (t2, some e), (t3, some e)]).Call t4 (some e)).err =
      some circuitOpenError ∧
    ((runCalls (NewCircuitBreaker 3 tm)
        [(t1, some e), (t2, some e), (t3, some e)]).Call t4 (some e)).err ≠ some e := by
  have hgen1 : (cb.Call now fnErr).invoked = true → (cb.Call now fnErr).err = fnErr := by
    unfold CircuitBreaker.Call
    cases checkPhase cb now <;> simp
  have hgen2 : (cb.Call now fnErr).invoked = false →
      (cb.Call now fnErr).err = some circuitOpenError := by
    unfold CircuitBreaker.Call
    cases checkPhase cb now <;> simp
  have hrun : runCalls (NewCircuitBreaker 3 tm)
      [(t1, some e), (t2, some e), (t3, some e)] = ⟨.Open, 3, 3, t3, tm⟩ := by
    show runCalls _ _ = _
    rw [runCalls, call_closed (some e) rfl]
    rw [show settle (NewCircuitBreaker 3 tm) t1 (some e) =
        (⟨.Closed, 1, 3, t1, tm⟩ : CircuitBreaker) by
          rw [settle]; norm_num [NewCircuitBreaker]; exact fun h => absurd h (by decide)]
    rw [runCalls, call_closed (some e) rfl]
    rw [show settle (⟨.Closed, 1, 3, t1, tm⟩ : CircuitBreaker) t2 (some e) =
        (⟨.Closed, 2, 3, t2, tm⟩ : CircuitBreaker) by
          rw [settle]; norm_num; exact fun h => absurd h (by decide)]
    rw [runCalls, call_closed (some e) rfl]
    rw [show settle (⟨.Closed, 2, 3, t2, tm⟩ : CircuitBreaker) t3 (some e) =
        (⟨.Open, 3, 3, t3, tm⟩ : CircuitBreaker) by rw [settle]; norm_num]
    rw [runCalls]
  have hrej : ((⟨.Open, 3, 3, t3, tm⟩ : CircuitBreaker).Call t4 (some e)) =
      ⟨⟨.Open, 3, 3, t3, tm⟩, some circuitOpenError, false⟩ :=
    call_reject (some e) rfl (by show ¬ t4 - t3 > tm; omega)
  rw [hrun, hrej]
  refine ⟨hgen1, hgen2, rfl, rfl, ?_⟩
  intro h
  exact he (Option.some.inj h).symm

/-- Witness for C2 at threshold 3, timeout 5, with the demo error message. -/
theorem c2_call_error_discipline_witness :
    ((runCalls (NewCircuitBreaker 3 5)
        [(0, some "service unavailable"), (1, some "service unavailable"),
         (2, some "service unavailable")]).Call 3
      (some "service unavailable")).invoked = false :=
  (c2_call_error_discipline (NewCircuitBreaker 3 5) 0 none 5 0 1 2 3
    "service unavailable" (by decide) (by decide)).2.2.1

/-- C3: from the Open (Blocking) state a call before the timeout is rejected
with no transition; once the timeout has elapsed the probe call is let
through; a failed probe returns the breaker to Open with a fresh failure
timestamp so that the next immediate call is rejected, while a successful
probe resets the breaker to Closed (Allowing) with failure counter 0. -/
theorem c3_probing_cycle (cb : CircuitBreaker) (tnow tprobe tnext : Int) (e : String)
    (hopen : cb.state = .Open)
    (hnotyet : tnow - cb.lastFailTime ≤ cb.timeout)
    (helapsed : tprobe - cb.lastFailTime > cb.timeout)
    (hnext : tnext - tprobe ≤ cb.timeout) :
    ((cb.Call tnow (some e)).invoked = false ∧ (cb.Call tnow (some e)).cb = cb) ∧
    ((cb.Call tprobe (some e)).invoked = true ∧ (cb.Call tprobe none).invoked = true) ∧
    ((cb.Call tprobe (some e)).cb.state = .Open ∧
     (cb.Call tprobe (some e)).cb.lastFailTime = tprobe ∧
     ((cb.Call tprobe (some e)).cb.Call tnext (some e)).invoked = false ∧
     ((cb.Call tprobe (some e)).cb.Call tnext (some e)).err = some circuitOpenError) ∧
    ((cb.Call tprobe none).cb.state = .Closed ∧ (cb.Call tprobe none).cb.failures = 0) := by
  have hrej := @call_reject cb tnow (some e) hopen (by omega)
  have hprobeF := @call_probe cb tprobe (some e) hopen helapsed
  have hprobeS := @call_probe cb tprobe none hopen helapsed
  have hsettleF : settle { cb with state := .HalfOpen } tprobe (some e) =
      { cb with state := .Open, failures := cb.failures + 1, lastFailTime := tprobe } := by
    rw [settle]
    simp
  have hsettleS : settle { cb with state := .HalfOpen } tprobe none =
      { cb with state := .Closed, failures := 0 } := by
    rw [settle]
  refine ⟨⟨by rw [hrej], by rw [hrej]⟩, ⟨by rw [hprobeF], by rw [hprobeS]⟩, ?_, ?_⟩
  · rw [hprobeF]
    show (settle _ _ _).state = _ ∧ (settle _ _ _).lastFailTime = _ ∧
      ((settle _ _ _).Call tnext (some e)).invoked = false ∧
      ((settle _ _ _).Call tnext (some e)).err = some circuitOpenError
    rw [hsettleF]
    have hrej2 := @call_reject
      { cb with state := .Open, failures := cb.failures + 1, lastFailTime := tprobe }
      tnext (some e) rfl (by show ¬ tnext - tprobe > cb.timeout; omega)
    rw [hrej2]
    exact ⟨rfl, rfl, rfl, rfl⟩
  · rw [hprobeS]
    show (settle _ _ _).state = _ ∧ (settle _ _ _).failures = 0
    rw [hsettleS]
    exact ⟨rfl, rfl⟩

/-- Witness for C3 at a concrete Open breaker, clock values 3 (too early),
10 (past the timeout) and 12 (immediately after the failed probe). -/
theorem c3_probing_cycle_witness :
    ((⟨.Open, 3, 3, 0, 5⟩ : CircuitBreaker).Call 10 (some "boom")).cb.state = .Open ∧
    ((⟨.Open, 3, 3, 0, 5⟩ : CircuitBreaker).Call 10 none).cb.state = .Closed :=
  ⟨(c3_probing_cycle ⟨.Open, 3, 3, 0, 5⟩ 3 10 12 "boom" rfl (by decide) (by decide)
      (by decide)).2.2.1.1,
   (c3_probing_cycle ⟨.Open, 3, 3, 0, 5⟩ 3 10 12 "boom" rfl (by decide) (by decide)
      (by decide)).2.2.2.1⟩

/-- C9: whenever the guarded operation is actually invoked and fails, Call
increments the failure counter and records the failure time; a failed probe
call from the Open state therefore leaves the counter strictly above the
threshold, because the counter was not reset on entering HalfOpen. -/
theorem c9_failure_updates_counter (cb : CircuitBreaker) (now : Int) (e : String)
    (hreach : ReachableCB cb)
    (hinvoked : (cb.Call now (some e)).invoked = true) :
    (cb.Call now (some e)).cb.failures = cb.failures + 1 ∧
    (cb.Call now (some e)).cb.lastFailTime = now ∧
    (cb.state = .Open → cb.threshold < (cb.Call now (some e)).cb.failures) := by
  obtain ⟨cb1, hchk⟩ := call_invoked_iff.mp hinvoked
  have hcall : cb.Call now (some e) = ⟨settle cb1 now (some e), some e, true⟩ := by
    unfold CircuitBreaker.Call
    rw [hchk]
  have hfail : cb1.failures = cb.failures := by
    rcases checkPhase_some hchk with h | ⟨_, h⟩ <;> simp [h]
  have hf : (settle cb1 now (some e)).failures = cb.failures + 1 := by
    rw [settle, ← hfail]
  have hlt : (settle cb1 now (some e)).lastFailTime = now := by
    rw [settle]
  refine ⟨by rw [hcall]; exact hf, by rw [hcall]; exact hlt, ?_⟩
  intro hopen
  have hthr := (reachable_cbInv hreach).1 hopen
  rw [hcall]
  show cb.threshold < (settle cb1 now (some e)).failures
  rw [hf]
  omega

/-- Witness for C9: a reachable Open breaker (three failures at threshold 3)
whose probe at clock 10 fails. -/
theorem c9_failure_updates_counter_witness :
    ((⟨.Open, 3, 3, 0, 5⟩ : CircuitBreaker).Call 10 (some "boom")).cb.failures = 3 + 1 ∧
    ((⟨.Open, 3, 3, 0, 5⟩ : CircuitBreaker).Call 10 (some "boom")).cb.lastFailTime = 10 ∧
    ((⟨.Open, 3, 3, 0, 5⟩ : CircuitBreaker).state = .Open →
      (3:Int) < ((⟨.Open, 3, 3, 0, 5⟩ : CircuitBreaker).Call 10 (some "boom")).cb.failures) :=
  c9_failure_updates_counter ⟨.Open, 3, 3, 0, 5⟩ 10 "boom"
    ⟨3, 5, [(0, some "boom"), (0, some "boom"), (0, some "boom")], by decide⟩ (by decide)

/-! ### Worker pool (06_concurrency/main.go, lines 214-221 and 450-477)

The jobs channel, the N workers and the results channel are modelled as a
small-step transition system with a nondeterministic scheduler.  A state
records the jobs still buffered in the (already closed) jobs channel, the
multiset of jobs currently inside workers, how many workers are idle in
their range loop, how many have exited it, the multiset of produced
results, and whether close(results) has run.  Channel receive hands the
head of the buffer to exactly one worker (Go channel semantics); a worker
that sees the closed, drained channel leaves its range loop and its
deferred wg.Done() fires; the coordinator goroutine (lines 466-469) may
close the results channel once wg.Wait() returns, i.e. once all N workers
have exited. -/

/-- Go: results <- job * job (line 219). -/
def square (j : Int) : Int := j * j

/-- One configuration of the worker-pool run. -/
structure PoolState where
  jobs : List Int
  held : Multiset Int
  idle : Nat
  exited : Nat
  results : Multiset Int
  resultsClosed : Bool
deriving DecidableEq

/-- The configuration after main has enqueued the batch J and closed the
jobs channel, with all N workers started and idle (lines 450-463). -/
def poolInit (N : Nat) (J : List Int) : PoolState :=
  ⟨J, 0, N, 0, 0, false⟩

/-- The scheduler steps.  take: an idle worker receives the next buffered
job; finish: a worker finishes its job and sends the square to results;
exitW: an idle worker sees the closed, drained jobs channel, leaves the
range loop and calls wg.Done(); closeResults: the coordinator goroutine
returns from wg.Wait() (all N workers exited) and closes results once. -/
inductive PoolStep (N : Nat) : PoolState → PoolState → Prop
  | take (j : Int) (rest : List Int) (held : Multiset Int) (idle exited : Nat)
      (results : Multiset Int) (closed : Bool) :
      PoolStep N ⟨j :: rest, held, idle + 1, exited, results, closed⟩
                 ⟨rest, j ::ₘ held, idle, exited, results, closed⟩
  | finish (jobs : List Int) (j : Int) (held : Multiset Int) (idle exited : Nat)
      (results : Multiset Int) (closed : Bool) :
      PoolStep N ⟨jobs, j ::ₘ held, idle, exited, results, closed⟩
                 ⟨jobs, held, idle + 1, exited, square j ::ₘ results, closed⟩
  | exitW (held : Multiset Int) (idle exited : Nat)
      (results : Multiset Int) (closed : Bool) :
      PoolStep N ⟨[], held, idle + 1, exited, results, closed⟩
                 ⟨[], held, idle, exited + 1, results, closed⟩
  | closeResults (jobs : List Int) (held : Multiset Int) (idle : Nat)
      (results : Multiset Int) :
      PoolStep N ⟨jobs, held, idle, N, results, false⟩
                 ⟨jobs, held, idle, N, results, true⟩

/-- Zero or more scheduler steps. -/
def PoolSteps (N : Nat) : PoolState → PoolState → Prop :=
  Relation.ReflTransGen (PoolStep N)

/-- The pool invariant: workers are conserved; every job of the batch is in
exactly one place (buffered, inside a worker, or delivered as its square);
once any worker has exited the jobs channel is drained; and the results
channel is closed only with all N workers exited. -/
def poolInv (N : Nat) (J : List Int) (s : PoolState) : Prop :=
  s.idle + Multiset.card s.held + s.exited = N ∧
  Multiset.map square (↑s.jobs : Multiset Int) + Multiset.map square s.held + s.results
    = Multiset.map square (↑J : Multiset Int) ∧
  (0 < s.exited → s.jobs = []) ∧
  (s.resultsClosed = true → s.exited = N)

lemma poolInv_init (N : Nat) (J : List Int) : poolInv N J (poolInit N J) := by
  refine ⟨by simp [poolInit], by simp [poolInit], ?_, ?_⟩
  · intro h
    simp [poolInit] at h
  · intro h
    simp [poolInit] at h

lemma poolInv_step {N : Nat} {J : List Int} {s t : PoolState}
    (hinv : poolInv N J s) (h : PoolStep N s t) : poolInv N J t := by
  obtain ⟨hcount, hjobs, hdrained, hclosed⟩ := hinv
  cases h with
  | take j rest held idle exited results closed =>
      refine ⟨?_, ?_, ?_, ?_⟩
      · simp only at hcount ⊢
        simp [Multiset.card_cons]
        omega
      · simp only at hjobs ⊢
        rw [← hjobs]
        simp [Multiset.map_cons, Multiset.cons_add, Multiset.add_cons, ← Multiset.cons_coe]
      · intro hex
        simp only at hdrained hex
        exact absurd (hdrained hex) (by simp)
      · intro hc
        simp only at hclosed hc ⊢
        exact hclosed hc
  | finish jobs j held idle exited results closed =>
      refine ⟨?_, ?_, ?_, ?_⟩
      · simp only at hcount ⊢
        simp [Multiset.card_cons] at hcount
        omega
      · simp only at hjobs ⊢
        rw [← hjobs]
        simp [Multiset.map_cons, Multiset.cons_add, Multiset.add_cons, ← Multiset.cons_coe]
      · intro hex
        simp only at hdrained hex ⊢
        exact hdrained hex
      · intro hc
        simp only at hclosed hc ⊢
        exact hclosed hc
  | exitW held idle exited results closed =>
      refine ⟨?_, ?_, ?_, ?_⟩
      · simp only at hcount ⊢
        omega
      · simp only at hjobs ⊢
        exact hjobs
      · intro hex
        rfl
      · intro hc
        simp only at hclosed hc hcount ⊢
        have := hclosed hc
        omega
  | closeResults jobs held idle results =>
      exact ⟨hcount, hjobs, hdrained, fun _ => rfl⟩

lemma poolInv_steps {N : Nat} {J : List Int} {s : PoolState}
    (hs : PoolSteps N (poolInit N J) s) : poolInv N J s := by
  induction hs with
  | refl => exact poolInv_init N J
  | tail hsteps hstep ih => exact poolInv_step ih hstep

/-! ### Worker pool claims -/

/-- C1: with N at least 1 workers and any batch J (closed after enqueueing,
possibly with jobs still un-consumed), once all workers have exited the
pool has produced exactly one result per job: the result multiset is
exactly the squares of the batch, with no duplication and no loss. -/
theorem c1_each_job_exactly_once (N : Nat) (J : List Int) (s : PoolState)
    (hN : 1 ≤ N) (hs : PoolSteps N (poolInit N J) s) (hdone : s.exited = N) :
    Multiset.card s.results = J.length ∧
    s.results = Multiset.map square (↑J : Multiset Int) := by
  obtain ⟨hcount, hjobs, hdrained, _⟩ := poolInv_steps hs
  have hheld : s.held = 0 := by
    rw [hdone] at hcount
    have : Multiset.card s.held = 0 := by omega
    exact Multiset.card_eq_zero.mp this
  have hempty : s.jobs = [] := hdrained (by omega)
  have hres : s.results = Multiset.map square (↑J : Multiset Int) := by
    rw [hempty, hheld] at hjobs
    simpa using hjobs
  refine ⟨?_, hres⟩
  rw [hres]
  simp

/-- C5: the results channel is closed exactly once, by the coordinator, and
only after all N workers have exited; once it is closed the system is
quiescent, so no result is ever written after the close (and, while it is
still open, some step is always enabled, so the run cannot get stuck
before the close). -/
theorem c5_results_closed_once (N : Nat) (J : List Int) (s : PoolState)
    (hs : PoolSteps N (poolInit N J) s) :
    (s.resultsClosed = true → s.exited = N ∧ ∀ t, ¬ PoolStep N s t) ∧
    (s.resultsClosed = false → ∃ t, PoolStep N s t) := by
  obtain ⟨hcount, hjobs, hdrained, hclosed⟩ := poolInv_steps hs
  constructor
  · intro hc
    have hex := hclosed hc
    refine ⟨hex, ?_⟩
    have hidle : s.idle = 0 := by
      rw [hex] at hcount
      omega
    have hheld : s.held = 0 := by
      rw [hex] at hcount
      have : Multiset.card s.held = 0 := by omega
      exact Multiset.card_eq_zero.mp this
    intro t hstep
    obtain ⟨jobs, held, idle, exited, results, closed⟩ := s
    simp only at hidle hheld hc
    cases hstep with
    | take j rest held2 idle2 exited2 results2 closed2 => omega
    | finish jobs2 j held2 idle2 exited2 results2 closed2 =>
        exact absurd hheld (by simp)
    | exitW held2 idle2 exited2 results2 closed2 => omega
    | closeResults jobs2 held2 idle2 results2 => simp at hc
  · intro hc
    obtain ⟨jobs, held, idle, exited, results, closed⟩ := s
    simp only at hcount hjobs hdrained hclosed hc
    subst hc
    cases idle with
    | succ k =>
        cases jobs with
        | nil => exact ⟨_, PoolStep.exitW held k exited results false⟩
        | cons j rest => exact ⟨_, PoolStep.take j rest held k exited results false⟩
    | zero =>
        rcases Multiset.empty_or_exists_mem held with hh | ⟨j, hj⟩
        · have hex : exited = N := by
            subst hh
            simpa using hcount
          subst hex
          exact ⟨_, PoolStep.closeResults jobs held 0 results⟩
        · obtain ⟨held2, rfl⟩ := Multiset.exists_cons_of_mem hj
          exact ⟨_, PoolStep.finish jobs j held2 0 exited results false⟩

/-- C6: for the batch 1..9 under the square transform (exactly the demo in
main, section 10), any complete run has result sum 285, whatever order the
scheduler interleaved the workers in. -/
theorem c6_sum_of_squares_285 (N : Nat) (s : PoolState)
    (hN : 1 ≤ N)
    (hs : PoolSteps N (poolInit N [1, 2, 3, 4, 5, 6, 7, 8, 9]) s)
    (hdone : s.exited = N) :
    Multiset.sum s.results = 285 := by
  obtain ⟨hcount, hjobs, hdrained, _⟩ := poolInv_steps hs
  have hheld : s.held = 0 := by
    rw [hdone] at hcount
    have : Multiset.card s.held = 0 := by omega
    exact Multiset.card_eq_zero.mp this
  have hempty : s.jobs = [] := hdrained (by omega)
  rw [hempty, hheld] at hjobs
  simp only [Multiset.coe_nil, Multiset.map_zero, zero_add] at hjobs
  rw [hjobs]
  decide

/-! ### A concrete complete run, used to witness the pool claims -/

lemma drain_steps (N : Nat) (J : List Int) (idle exited : Nat) (R : Multiset Int) :
    PoolSteps N ⟨J, 0, idle + 1, exited, R, false⟩
               ⟨[], 0, idle + 1, exited, Multiset.map square (↑J : Multiset Int) + R, false⟩ := by
  induction J generalizing R with
  | nil =>
      have : Multiset.map square (↑([] : List Int) : Multiset Int) + R = R := by simp
      rw [this]
      exact Relation.ReflTransGen.refl
  | cons j rest ih =>
      have s1 : PoolStep N ⟨j :: rest, 0, idle + 1, exited, R, false⟩
          ⟨rest, j ::ₘ 0, idle, exited, R, false⟩ :=
        PoolStep.take j rest 0 idle exited R false
      have s2 : PoolStep N ⟨rest, j ::ₘ 0, idle, exited, R, false⟩
          ⟨rest, 0, idle + 1, exited, square j ::ₘ R, false⟩ :=
        PoolStep.finish rest j 0 idle exited R false
      have h3 := ih (square j ::ₘ R)
      have heq : Multiset.map square (↑(j :: rest) : Multiset Int) + R =
          Multiset.map square (↑rest : Multiset Int) + (square j ::ₘ R) := by
        simp [Multiset.map_cons, Multiset.cons_add, Multiset.add_cons, ← Multiset.cons_coe]
      rw [heq]
      exact Relation.ReflTransGen.head s1 (Relation.ReflTransGen.head s2 h3)

lemma exit_steps (N k exited : Nat) (R : Multiset Int) :
    PoolSteps N ⟨[], 0, k, exited, R, false⟩ ⟨[], 0, 0, k + exited, R, false⟩ := by
  induction k generalizing exited with
  | zero =>
      have : 0 + exited = exited := by omega
      rw [this]
      exact Relation.ReflTransGen.refl
  | succ k ih =>
      have s1 : PoolStep N ⟨[], 0, k + 1, exited, R, false⟩
          ⟨[], 0, k, exited + 1, R, false⟩ :=
        PoolStep.exitW 0 k exited R false
      have h2 := ih (exited + 1)
      have heq : k + (exited + 1) = k + 1 + exited := by omega
      rw [heq] at h2
      exact Relation.ReflTransGen.head s1 h2

/-- A complete run: one worker drains the whole batch, every worker exits,
then the coordinator closes the results channel. -/
lemma full_run (N : Nat) (J : List Int) (hN : 1 ≤ N) :
    PoolSteps N (poolInit N J)
      ⟨[], 0, 0, N, Multiset.map square (↑J : Multiset Int), true⟩ := by
  obtain ⟨n, rfl⟩ : ∃ n, N = n + 1 := ⟨N - 1, by omega⟩
  have h1 := drain_steps (n + 1) J n 0 (0 : Multiset Int)
  have h2 := exit_steps (n + 1) (n + 1) 0 (Multiset.map square (↑J : Multiset Int))
  have hR : Multiset.map square (↑J : Multiset Int) + 0 =
      Multiset.map square (↑J : Multiset Int) := by simp
  rw [hR] at h1
  have hE : n + 1 + 0 = n + 1 := by omega
  rw [hE] at h2
  have h3 : PoolStep (n + 1)
      ⟨[], 0, 0, n + 1, Multiset.map square (↑J : Multiset Int), false⟩
      ⟨[], 0, 0, n + 1, Multiset.map square (↑J : Multiset Int), true⟩ :=
    PoolStep.closeResults [] 0 0 (Multiset.map square (↑J : Multiset Int))
  exact ((h1.trans h2).tail h3)

/-- Witness for C1: one worker, batch with a repeated job value. -/
theorem c1_each_job_exactly_once_witness :
    Multiset.card (⟨[], 0, 0, 1, Multiset.map square (↑([5, 5, 2] : List Int) : Multiset Int), true⟩ :
        PoolState).results = 3 :=
  (c1_each_job_exactly_once 1 [5, 5, 2]
    ⟨[], 0, 0, 1, Multiset.map square (↑([5, 5, 2] : List Int) : Multiset Int), true⟩
    (by decide) (full_run 1 [5, 5, 2] (by decide)) rfl).1

/-- Witness for C5 at the closed final state of a one-worker run. -/
theorem c5_results_closed_once_witness :
    (⟨[], 0, 0, 1, Multiset.map square (↑([7] : List Int) : Multiset Int), true⟩ :
        PoolState).exited = 1 :=
  ((c5_results_closed_once 1 [7]
    ⟨[], 0, 0, 1, Multiset.map square (↑([7] : List Int) : Multiset Int), true⟩
    (full_run 1 [7] (by decide))).1 rfl).1

/-- Witness for C6: a complete three-worker run over the batch 1..9. -/
theorem c6_sum_of_squares_285_witness :
    Multiset.sum (⟨[], 0, 0, 3,
        Multiset.map square (↑([1, 2, 3, 4, 5, 6, 7, 8, 9] : List Int) : Multiset Int), true⟩ :
        PoolState).results = 285 :=
  c6_sum_of_squares_285 3
    ⟨[], 0, 0, 3, Multiset.map square (↑([1, 2, 3, 4, 5, 6, 7, 8, 9] : List Int) : Multiset Int), true⟩
    (by decide) (full_run 3 [1, 2, 3, 4, 5, 6, 7, 8, 9] (by decide)) rfl

/-! ### Concurrent invocation of Call (10_advanced_patterns/main.go, lines 242-244)

Call starts with cb.mu.Lock() and defer cb.mu.Unlock(), so the whole body
runs in one critical section.  To verify the claimed consequences of this
lock discipline rather than assume them, each concurrent caller is split
into the two phases of the body that matter: the state check at the top of
the switch (acquiring the mutex) and the execution of fn followed by the
state update (releasing the mutex).  A rejected call holds the mutex only
across the check and changes nothing, so its acquire/check/return/release
sequence is one transition.  The ghost field hist records the completed
calls in completion order. -/

/-- The program counter of one concurrent caller of Call. -/
inductive TPc where
  | ready
  | invoking
  | done (invoked : Bool) (err : Option String)
deriving DecidableEq

/-- One concurrent caller: the clock value of its call, the outcome its fn
would produce, and where it currently is in the body of Call. -/
structure CBThread where
  now : Int
  fnErr : Option String
  pc : TPc
deriving DecidableEq

/-- The shared system: the breaker struct, its mutex, the callers and the
ghost history of completed calls. -/
structure CBSys where
  cb : CircuitBreaker
  locked : Bool
  threads : Multiset CBThread
  hist : List (Int × Option String)
deriving DecidableEq

/-- The completed call of a thread, if any. -/
def tDone (t : CBThread) : Option (Int × Option String) :=
  match t.pc with
  | .done _ _ => some (t.now, t.fnErr)
  | _ => none

/-- The multiset of calls the threads have completed. -/
def doneInputs (threads : Multiset CBThread) : Multiset (Int × Option String) :=
  Multiset.filterMap tDone threads

/-- All callers parked before their Call, lock free, nothing completed. -/
def sysInit (cb0 : CircuitBreaker) (inputs : List (Int × Option String)) : CBSys :=
  ⟨cb0, false,
    ↑(inputs.map fun p => ({ now := p.1, fnErr := p.2, pc := .ready } : CBThread)), []⟩

/-- Interleaved execution.  reject: a caller takes the mutex, sees state
Open inside the timeout window, returns the circuit-open error and releases
the mutex, all without touching the struct; acquire: a caller takes the
mutex and runs the switch, possibly moving Open to HalfOpen; invoke: the
caller holding the mutex runs fn, applies the post-fn update and releases
the mutex. -/
inductive CBStep : CBSys → CBSys → Prop
  | reject (cb : CircuitBreaker) (rest : Multiset CBThread)
      (hist : List (Int × Option String)) (t : CBThread)
      (hpc : t.pc = .ready)
      (hchk : checkPhase cb t.now = none) :
      CBStep ⟨cb, false, t ::ₘ rest, hist⟩
             ⟨cb, false, { t with pc := .done false (some circuitOpenError) } ::ₘ rest,
              hist ++ [(t.now, t.fnErr)]⟩
  | acquire (cb cb1 : CircuitBreaker) (rest : Multiset CBThread)
      (hist : List (Int × Option String)) (t : CBThread)
      (hpc : t.pc = .ready)
      (hchk : checkPhase cb t.now = some cb1) :
      CBStep ⟨cb, false, t ::ₘ rest, hist⟩
             ⟨cb1, true, { t with pc := .invoking } ::ₘ rest, hist⟩
  | invoke (cb : CircuitBreaker) (rest : Multiset CBThread)
      (hist : List (Int × Option String)) (t : CBThread)
      (hpc : t.pc = .invoking) :
      CBStep ⟨cb, true, t ::ₘ rest, hist⟩
             ⟨settle cb t.now t.fnErr, false,
              { t with pc := .done true t.fnErr } ::ₘ rest,
              hist ++ [(t.now, t.fnErr)]⟩

/-- Running the calls of l1 and then those of l2. -/
lemma runCalls_append (cb : CircuitBreaker) (l1 l2 : List (Int × Option String)) :
    runCalls cb (l1 ++ l2) = runCalls (runCalls cb l1) l2 := by
  induction l1 generalizing cb with
  | nil => rfl
  | cons p tl ih =>
      obtain ⟨n, e⟩ := p
      rw [List.cons_append, runCalls, runCalls]
      exact ih _

/-- The concurrent-system invariant: with the mutex free every caller is
outside fn and the struct equals the sequential execution of the completed
calls; with the mutex held exactly one caller is inside fn and the struct
is the check-phase image of that sequential state; the ghost history always
matches the completed calls. -/
def SysInv (cb0 : CircuitBreaker) (s : CBSys) : Prop :=
  (s.locked = false →
    s.cb = runCalls cb0 s.hist ∧ ∀ t ∈ s.threads, t.pc ≠ .invoking) ∧
  (s.locked = true →
    Multiset.countP (fun t => t.pc = TPc.invoking) s.threads = 1 ∧
    ∀ t ∈ s.threads, t.pc = .invoking →
      checkPhase (runCalls cb0 s.hist) t.now = some s.cb) ∧
  (↑s.hist : Multiset (Int × Option String)) = doneInputs s.threads

lemma sysInv_init (cb0 : CircuitBreaker) (inputs : List (Int × Option String)) :
    SysInv cb0 (sysInit cb0 inputs) := by
  refine ⟨fun _ => ⟨rfl, ?_⟩, fun h => by simp [sysInit] at h, ?_⟩
  · intro t ht
    simp only [sysInit] at ht
    rw [Multiset.mem_coe, List.mem_map] at ht
    obtain ⟨p, _, rfl⟩ := ht
    simp
  · show (↑([] : List (Int × Option String)) : Multiset (Int × Option String)) = _
    rw [doneInputs]
    induction inputs with
    | nil => rfl
    | cons p tl ih =>
        show _ = Multiset.filterMap tDone ↑((⟨p.1, p.2, .ready⟩ : CBThread) :: tl.map _)
        rw [← Multiset.cons_coe, Multiset.filterMap_cons_none _ _ (by rw [tDone])]
        exact ih

lemma sysInv_step {cb0 : CircuitBreaker} {s u : CBSys}
    (hinv : SysInv cb0 s) (h : CBStep s u) : SysInv cb0 u := by
  obtain ⟨hfree, hheld, hhist⟩ := hinv
  cases h with
  | reject cb rest hist t hpc hchk =>
      obtain ⟨hcb, hnoinv⟩ := hfree rfl
      simp only at hcb hnoinv hhist ⊢
      have hdone2 : (↑(hist ++ [(t.now, t.fnErr)]) : Multiset (Int × Option String)) =
          doneInputs ({ t with pc := .done false (some circuitOpenError) } ::ₘ rest) := by
        rw [doneInputs, Multiset.filterMap_cons_some _ _ _ (by rw [tDone])]
        rw [doneInputs, Multiset.filterMap_cons_none _ _ (by rw [tDone, hpc])] at hhist
        rw [← Multiset.coe_add hist [(t.now, t.fnErr)], hhist]
        rw [show (↑[(t.now, t.fnErr)] : Multiset (Int × Option String)) =
          (t.now, t.fnErr) ::ₘ 0 from rfl]
        rw [Multiset.add_cons, add_zero]
      refine ⟨fun _ => ⟨?_, ?_⟩, fun hx => by simp at hx, hdone2⟩
      · rw [runCalls_append, ← hcb, runCalls]
        show cb = (runCalls (cb.Call t.now t.fnErr).cb [])
        rw [runCalls]
        unfold CircuitBreaker.Call
        rw [hchk]
      · intro u hu
        rcases Multiset.mem_cons.mp hu with rfl | hu
        · simp
        · exact hnoinv u (Multiset.mem_cons_of_mem hu)
  | acquire cb cb1 rest hist t hpc hchk =>
      obtain ⟨hcb, hnoinv⟩ := hfree rfl
      simp only at hcb hnoinv hhist ⊢
      refine ⟨fun hx => by simp at hx, fun _ => ⟨?_, ?_⟩, ?_⟩
      · rw [Multiset.countP_cons_of_pos _ (by simp)]
        rw [Multiset.countP_eq_zero.mpr ?_]
        · intro u hu hinvk
          exact hnoinv u (Multiset.mem_cons_of_mem hu) hinvk
      · intro u hu hinvk
        rcases Multiset.mem_cons.mp hu with rfl | hu
        · show checkPhase (runCalls cb0 hist) t.now = some cb1
          rw [← hcb]
          exact hchk
        · exact absurd hinvk (hnoinv u (Multiset.mem_cons_of_mem hu))
      · rw [doneInputs, Multiset.filterMap_cons_none _ _ (by rw [tDone])]
        rw [doneInputs, Multiset.filterMap_cons_none _ _ (by rw [tDone, hpc])] at hhist
        exact hhist
  | invoke cb rest hist t hpc =>
      obtain ⟨hcount, hchkall⟩ := hheld rfl
      simp only at hcount hchkall hhist ⊢
      have hchk := hchkall t (Multiset.mem_cons_self t rest) hpc
      have hrest : ∀ u ∈ rest, u.pc ≠ .invoking := by
        rw [Multiset.countP_cons_of_pos _ (by simp [hpc])] at hcount
        have : Multiset.countP (fun t => t.pc = TPc.invoking) rest = 0 := by omega
        exact Multiset.countP_eq_zero.mp this
      have hdone2 : (↑(hist ++ [(t.now, t.fnErr)]) : Multiset (Int × Option String)) =
          doneInputs ({ t with pc := .done true t.fnErr } ::ₘ rest) := by
        rw [doneInputs, Multiset.filterMap_cons_some _ _ _ (by rw [tDone])]
        rw [doneInputs, Multiset.filterMap_cons_none _ _ (by rw [tDone, hpc])] at hhist
        rw [← Multiset.coe_add hist [(t.now, t.fnErr)], hhist]
        rw [show (↑[(t.now, t.fnErr)] : Multiset (Int × Option String)) =
          (t.now, t.fnErr) ::ₘ 0 from rfl]
        rw [Multiset.add_cons, add_zero]
      refine ⟨fun _ => ⟨?_, ?_⟩, fun hx => by simp at hx, hdone2⟩
      · rw [runCalls_append, runCalls, runCalls]
        show settle cb t.now t.fnErr = ((runCalls cb0 hist).Call t.now t.fnErr).cb
        unfold CircuitBreaker.Call
        rw [hchk]
      · intro u hu
        rcases Multiset.mem_cons.mp hu with rfl | hu
        · simp
        · exact hrest u hu

lemma sysInv_steps {cb0 : CircuitBreaker} {inputs : List (Int × Option String)} {s : CBSys}
    (hs : Relation.ReflTransGen CBStep (sysInit cb0 inputs) s) : SysInv cb0 s := by
  induction hs with
  | refl => exact sysInv_init cb0 inputs
  | tail hsteps hstep ih => exact sysInv_step ih hstep

/-! ### Concurrency claim -/

/-- C7: under the lock discipline of Call, in every reachable interleaving
of arbitrarily many concurrent callers at most one caller is inside the
guarded operation; a caller is inside it only while holding the mutex and
never while the breaker is Open (Blocking); and whenever the mutex is free
the shared struct, failure counter included, equals the sequential
execution of exactly the completed calls, so no race corrupts it. -/
theorem c7_concurrent_call_safety (cb0 : CircuitBreaker)
    (inputs : List (Int × Option String)) (s : CBSys)
    (hs : Relation.ReflTransGen CBStep (sysInit cb0 inputs) s) :
    Multiset.countP (fun t => t.pc = TPc.invoking) s.threads ≤ 1 ∧
    (∀ t ∈ s.threads, t.pc = .invoking → s.locked = true) ∧
    (∀ t ∈ s.threads, t.pc = .invoking → s.cb.state ≠ .Open) ∧
    (s.locked = false → s.cb = runCalls cb0 s.hist) ∧
    (↑s.hist : Multiset (Int × Option String)) = doneInputs s.threads := by
  obtain ⟨hfree, hheld, hhist⟩ := sysInv_steps hs
  have hlocked : ∀ t ∈ s.threads, t.pc = .invoking → s.locked = true := by
    intro t ht hinvk
    cases hl : s.locked with
    | true => rfl
    | false => exact absurd hinvk ((hfree hl).2 t ht)
  refine ⟨?_, hlocked, ?_, fun hl => (hfree hl).1, hhist⟩
  · cases hl : s.locked with
    | true => exact le_of_eq (hheld hl).1
    | false =>
        rw [Multiset.countP_eq_zero.mpr ((hfree hl).2)]
        omega
  · intro t ht hinvk
    have hchk := (hheld (hlocked t ht hinvk)).2 t ht hinvk
    exact checkPhase_state_ne_open hchk

/-- Witness for C7: one caller with a failing operation runs to completion
(acquire, then invoke) against a threshold-3 breaker. -/
theorem c7_concurrent_call_safety_witness :
    (⟨⟨.Closed, 1, 3, 0, 5⟩, false,
        (⟨0, some "boom", .done true (some "boom")⟩ : CBThread) ::ₘ 0,
        [(0, some "boom")]⟩ : CBSys).cb =
      runCalls (NewCircuitBreaker 3 5) [(0, some "boom")] :=
  (c7_concurrent_call_safety (NewCircuitBreaker 3 5) [(0, some "boom")]
    ⟨⟨.Closed, 1, 3, 0, 5⟩, false,
      (⟨0, some "boom", .done true (some "boom")⟩ : CBThread) ::ₘ 0,
      [(0, some "boom")]⟩
    (Relation.ReflTransGen.head
      (CBStep.acquire (NewCircuitBreaker 3 5) (NewCircuitBreaker 3 5) 0 []
        ⟨0, some "boom", .ready⟩ rfl rfl)
      (Relation.ReflTransGen.single
        (CBStep.invoke (NewCircuitBreaker 3 5) 0 [] ⟨0, some "boom", .invoking⟩
          rfl)))).2.2.2.1 rfl

end GolangRepo
